import Mathlib

/-!
# Verification of Razel's host layer and target-pattern grammar

A shallow embedding of `src/cli/src/host/fs_host.rs`, `src/cli/src/host/host.rs`
and `src/cli/src/target_pattern.rs`, together with theorems settling the
specification claims about them.

Paths are modelled as an absoluteness flag plus the list of plain segments,
which is exactly the information Rust's `Path::components` exposes to the code
under study; strings handled character-by-character (the target-pattern
grammar) are modelled as `List Char`.
-/

set_option maxHeartbeats 1000000
set_option maxRecDepth 100000

namespace Razel

/-- A filesystem path as the Rust code sees it: whether it is absolute, plus
its plain (named) segments in order.  `Path::components` presents an absolute
path as the root marker `/` followed by the segments; see `pathComponents`. -/
structure RustPath where
  abs : Bool
  segs : List String
  deriving DecidableEq, Repr

/-- The component list `Path::components` yields for `p`: the root marker `/`
first when the path is absolute, then the plain segments.  (Rust additionally
drops interior `.` components here; the `normalize` loop below skips `.`
components itself, so keeping them in `segs` produces the same results —
see `foldl_normStep_filter_dot`.) -/
def pathComponents (p : RustPath) : List String :=
  (if p.abs then ["/"] else []) ++ p.segs

/-- One iteration of the loop body of `normalize` in `fs_host.rs`: `.` is
skipped, `..` pops the most recently pushed element (`Vec::pop`, a silent
no-op on an empty stack), and any other component — the root marker `/`
included, since the code only tests for `.` and `..` — is pushed. -/
def normStep (stack : List String) (component : String) : List String :=
  if component = "." then stack
  else if component = ".." then stack.dropLast
  else stack ++ [component]

/-- `PathBuf::push` for a single component: pushing the root marker replaces
the whole path with the root, pushing a plain component appends it. -/
def pushComponent (p : RustPath) (c : String) : RustPath :=
  if c = "/" then ⟨true, []⟩ else ⟨p.abs, p.segs ++ [c]⟩

/-- `PathBuf::from_iter(stack)`: push each stack element onto an initially
empty (relative) path. -/
def pathFromStack (stack : List String) : RustPath :=
  stack.foldl pushComponent ⟨false, []⟩

/-- `std::path::absolute`: an absolute path is returned as is, a relative
path is resolved against the process working directory `cwd` (itself given
by its segments), and the empty path is an error. -/
def rustAbsolute (cwd : List String) (p : RustPath) : Option RustPath :=
  if p.abs then some p
  else if p.segs = [] then none
  else some ⟨true, cwd ++ p.segs⟩

/-- `normalize` from `fs_host.rs`: make the path absolute, then fold the
component stack and reassemble. -/
def normalize (cwd : List String) (p : RustPath) : Option RustPath :=
  (rustAbsolute cwd p).map fun q =>
    pathFromStack ((pathComponents q).foldl normStep [])

/-- `Path::join`: an absolute argument replaces the base path entirely,
a relative argument is appended segment-wise. -/
def pathJoin (base p : RustPath) : RustPath :=
  if p.abs then p else ⟨base.abs, base.segs ++ p.segs⟩

/-- `Path::starts_with`: whole-component prefix test. -/
def pathStarts (p base : RustPath) : Bool :=
  (pathComponents base).isPrefixOf (pathComponents p)

/-- `Path::to_str` for the well-formed paths the code prints. -/
def displayPath (p : RustPath) : String :=
  (if p.abs then "/" else "") ++ String.intercalate "/" p.segs

instance {ε α : Type} [DecidableEq ε] [DecidableEq α] :
    DecidableEq (Except ε α) := fun x y =>
  match x, y with
  | .ok a, .ok b => decidable_of_iff (a = b) (by simp)
  | .error a, .error b => decidable_of_iff (a = b) (by simp)
  | .ok _, .error _ => isFalse (by simp)
  | .error _, .ok _ => isFalse (by simp)

/-- The file type reported by `DirEntry::file_type`; only `is_file` is
consulted by the code. -/
inductive FileType where
  | file
  | dir
  | symlink
  | socket
  | other
  deriving DecidableEq, Repr

/-- `std::fs::FileType::is_file`: true exactly for a regular file. -/
def FileType.is_file : FileType → Bool
  | .file => true
  | _ => false

/-- One raw directory entry as `read_dir` hands it to `FsHost::list`: its
file name and the (possibly failing) result of `DirEntry::file_type`. -/
structure RawEntry where
  name : String
  fileType : Except String FileType
  deriving DecidableEq

/-- The ambient filesystem: what `fs::read_to_string` and `fs::read_dir`
would answer at each path.  `readDir`'s elements model the per-entry
`io::Result<DirEntry>` values of the `ReadDir` iterator. -/
structure Fs where
  readFile : RustPath → Except String String
  readDir : RustPath → Except String (List (Except String RawEntry))

/-- `EntryKind` from `host.rs`. -/
inductive EntryKind where
  | File
  | Directory
  deriving DecidableEq, Repr

/-- `Entry` from `host.rs`: a workspace-relative path plus its kind. -/
structure Entry where
  path : RustPath
  kind : EntryKind
  deriving DecidableEq, Repr

/-- Errors surfaced by the host: `ExternalPathError` (the sandbox violation,
spec name `OutsideWorkspace`) or a propagated I/O error (spec names
`NotFound`/`IoFailure`), each carrying its message. -/
inductive HostError where
  | externalPath (msg : String)
  | io (msg : String)
  deriving DecidableEq, Repr

/-- `FsHost`: the canonicalized absolute workspace root, by its segments. -/
structure FsHost where
  wksp_root : List String

/-- The workspace root as a path. -/
def FsHost.rootPath (h : FsHost) : RustPath :=
  ⟨true, h.wksp_root⟩

/-- The `ExternalPathError` message built in `fs_host.rs`. -/
def outsideMsg (path : RustPath) : String :=
  "Path \"" ++ displayPath path ++ "\" is outside the workspace."

/-- `collect::<Result<Vec<_>, _>>()`: succeed with all values, or fail with
the first error. -/
def collectE {ε α : Type} : List (Except ε α) → Except ε (List α)
  | [] => .ok []
  | .error e :: _ => .error e
  | .ok a :: rest => (collectE rest).map (a :: ·)

/-- `FsHost::read_to_string`: join onto the root, normalize (the joined path
is always absolute, so the working directory `cwd` passed down to
`std::path::absolute` never actually matters), reject paths that escape the
root, then read. -/
def FsHost.read_to_string (h : FsHost) (fs : Fs) (cwd : List String)
    (path : RustPath) : Except HostError String :=
  match normalize cwd (pathJoin h.rootPath path) with
  | none => .error (.io "invalid path")
  | some resolved =>
    if ! pathStarts resolved h.rootPath then
      .error (.externalPath (outsideMsg path))
    else
      match fs.readFile resolved with
      | .ok s => .ok s
      | .error e => .error (.io e)

/-- The per-entry closure of `FsHost::list`: build an `Entry` whose path is
the original caller-supplied `path` joined with the child's file name, and
whose kind is `File` exactly when `file_type()` reports a regular file —
any failure of `file_type()` fails the entry. -/
def entryOfRaw (path : RustPath) (de : RawEntry) : Except String Entry :=
  de.fileType.map fun ft =>
    ⟨pathJoin path ⟨false, [de.name]⟩,
      if ft.is_file then .File else .Directory⟩

/-- `FsHost::list`: join, normalize, boundary-check, enumerate the directory
and collect the per-entry results (first error aborts the whole call). -/
def FsHost.list (h : FsHost) (fs : Fs) (cwd : List String)
    (path : RustPath) : Except HostError (List Entry) :=
  match normalize cwd (pathJoin h.rootPath path) with
  | none => .error (.io "invalid path")
  | some resolved =>
    if ! pathStarts resolved h.rootPath then
      .error (.externalPath (outsideMsg path))
    else
      match fs.readDir resolved with
      | .error e => .error (.io e)
      | .ok raws =>
        match collectE (raws.map fun r => r.bind (entryOfRaw path)) with
        | .error e => .error (.io e)
        | .ok entries => .ok entries

/-- `list_all_files` from `host.rs`, over an arbitrary `Host` represented by
its `list` method.  The Rust function recurses without any guard; the `fuel`
argument models the call stack, and every statement about the function takes
enough of it. -/
def list_all_files (host : RustPath → Except HostError (List Entry)) :
    Nat → RustPath → Except HostError (List RustPath)
  | 0, _ => .error (.io "recursion depth exhausted")
  | fuel + 1, path =>
    match host path with
    | .error e => .error e
    | .ok entries =>
      match collectE (entries.map fun e =>
          match e.kind with
          | .File => .ok [e.path]
          | .Directory => list_all_files host fuel e.path) with
      | .error e => .error e
      | .ok nested => .ok nested.flatten

/-- A small in-memory `Host` (given by its `list` method, the only one the
recursive lister consults): a root directory holding `f.txt` and a
subdirectory `d` holding `g.txt`.  Used to exercise `list_all_files`. -/
def sampleHost : RustPath → Except HostError (List Entry) := fun p =>
  if p = ⟨false, []⟩ then
    .ok [⟨⟨false, ["f.txt"]⟩, .File⟩, ⟨⟨false, ["d"]⟩, .Directory⟩]
  else if p = ⟨false, ["d"]⟩ then
    .ok [⟨⟨false, ["d", "g.txt"]⟩, .File⟩]
  else .error (.io "No such file or directory")

/-! ## Target patterns (`target_pattern.rs`)

The grammar works character-by-character, so its strings are `List Char`. -/

/-- Rust `str` contents, as a character list. -/
abbrev Str := List Char

/-- The character list of a string literal. -/
def toStr (s : String) : Str :=
  s.data

/-- `str::strip_prefix` (`stripPre pat s`): the remainder of `s` after the
leading occurrence of `pat`, if `pat` leads `s`. -/
def stripPre : Str → Str → Option Str
  | [], s => some s
  | _ :: _, [] => none
  | p :: ps, c :: cs => if p = c then stripPre ps cs else none

/-- `str::strip_suffix` (`stripSuf pat s`). -/
def stripSuf (pat s : Str) : Option Str :=
  (stripPre pat.reverse s.reverse).map List.reverse

/-- `str::split(sep).collect::<Vec<_>>()`: the (always nonempty) list of
chunks of `s` between occurrences of `sep`. -/
def splitOn (sep : Char) : Str → List Str
  | [] => [[]]
  | c :: rest =>
    match splitOn sep rest with
    | [] => [[c]]
    | s :: ss => if c = sep then [] :: s :: ss else (c :: s) :: ss

/-- `PatternScope` from `target_pattern.rs`. -/
inductive PatternScope where
  | SingleTarget (target : Str)
  | Package
  | Descendants
  deriving DecidableEq, Repr

/-- `TargetPattern` from `target_pattern.rs`. -/
structure TargetPattern where
  package : Str
  scope : PatternScope
  deriving DecidableEq, Repr

/-- `ParseError` from `target_pattern.rs`: just its message. -/
structure ParseError where
  msg : Str
  deriving DecidableEq, Repr

/-- The `MissingPrefix` message (built with the full input). -/
def msgMissingPre (s : Str) : Str :=
  toStr "Failed to parse `" ++ s ++
    toStr "`, target patterns must start with `//`."

/-- The `MissingTargetOrDescendants` message.  In the Rust source the `match`
binder `[ pattern ] =>` shadows the function argument `pattern`, so `s` here
receives the input with its leading `//` already stripped. -/
def msgMissingTarget (s : Str) : Str :=
  toStr "Failed to parse `" ++ s ++
    toStr "`, target patterns must end with `:target` or `/...`."

/-- The `TooManyColons` message (built with the full input). -/
def msgTooManyColons (s : Str) : Str :=
  toStr "Failed to parse `" ++ s ++
    toStr "`, target patterns may contain at most one `:`."

/-- `TargetPattern::parse`. -/
def TargetPattern.parse (pattern : Str) : Except ParseError TargetPattern :=
  match stripPre (toStr "//") pattern with
  | none => .error ⟨msgMissingPre pattern⟩
  | some rest =>
    match splitOn ':' rest with
    | [single] =>
      match stripSuf (toStr "/...") single with
      | some package => .ok ⟨package, .Descendants⟩
      | none => .error ⟨msgMissingTarget single⟩
    | [package, target] =>
      if target = toStr "all" then .ok ⟨package, .Package⟩
      else .ok ⟨package, .SingleTarget target⟩
    | _ => .error ⟨msgTooManyColons pattern⟩

/-- The `Display` implementation for `TargetPattern`. -/
def TargetPattern.format (t : TargetPattern) : Str :=
  match t.scope with
  | .SingleTarget target => toStr "//" ++ t.package ++ toStr ":" ++ target
  | .Package => toStr "//" ++ t.package ++ toStr ":all"
  | .Descendants => toStr "//" ++ t.package ++ toStr "/..."

/-! ## Lemmas about the normalization stack -/

/-- Components other than `.` and `..` are simply pushed, in order. -/
theorem foldl_normStep_clean (l : List String) :
    ∀ s : List String, (∀ x ∈ l, x ≠ "." ∧ x ≠ "..") →
      List.foldl normStep s l = s ++ l := by
  induction l with
  | nil => intro s _; simp
  | cons c l ih =>
    intro s hc
    have hc₁ := hc c (by simp)
    have hstep : normStep s c = s ++ [c] := by
      simp [normStep, hc₁.1, hc₁.2]
    rw [List.foldl_cons, hstep, ih (s ++ [c]) fun x hx => hc x (by simp [hx])]
    simp

/-- A run of `k` many `..` components pops the last `k` stack elements. -/
theorem foldl_normStep_replicate (k : Nat) :
    ∀ s : List String,
      List.foldl normStep s (List.replicate k "..") = s.take (s.length - k) := by
  induction k with
  | zero => intro s; simp
  | succ k ih =>
    intro s
    rw [List.replicate_succ, List.foldl_cons]
    have hstep : normStep s ".." = s.dropLast := by simp [normStep]
    rw [hstep, ih, List.dropLast_eq_take, List.take_take, List.length_take]
    congr 1
    omega

/-- Every element of the normalization stack was pushed, hence is neither
`.` nor `..`. -/
theorem foldl_normStep_mem (l : List String) :
    ∀ s : List String, (∀ x ∈ s, x ≠ "." ∧ x ≠ "..") →
      ∀ x ∈ List.foldl normStep s l, x ≠ "." ∧ x ≠ ".." := by
  induction l with
  | nil => intro s hs; simpa using hs
  | cons c l ih =>
    intro s hs
    rw [List.foldl_cons]
    apply ih
    intro x hx
    unfold normStep at hx
    by_cases h1 : c = "."
    · rw [if_pos h1] at hx
      exact hs x hx
    · rw [if_neg h1] at hx
      by_cases h2 : c = ".."
      · rw [if_pos h2] at hx
        exact hs x (List.dropLast_subset _ hx)
      · rw [if_neg h2] at hx
        rcases List.mem_append.mp hx with h | h
        · exact hs x h
        · rw [List.mem_singleton.mp h]
          exact ⟨h1, h2⟩

/-- Skipping `.` components before the fold (as Rust's `components()` does)
changes nothing: the fold skips them itself. -/
theorem foldl_normStep_filter_dot (l : List String) :
    ∀ s : List String,
      List.foldl normStep s (l.filter (· ≠ ".")) = List.foldl normStep s l := by
  induction l with
  | nil => intro s; rfl
  | cons c l ih =>
    intro s
    by_cases hc : c = "."
    · subst hc
      rw [List.filter_cons_of_neg (by simp), List.foldl_cons, ih]
      rfl
    · rw [List.filter_cons_of_pos (by simpa using hc), List.foldl_cons,
        List.foldl_cons, ih]

/-- Reassembling a stack of plain components appends them after the base. -/
theorem foldl_push_clean (l : List String) :
    ∀ (b : Bool) (s : List String), (∀ x ∈ l, x ≠ "/") →
      List.foldl pushComponent ⟨b, s⟩ l = ⟨b, s ++ l⟩ := by
  induction l with
  | nil => intro b s _; simp
  | cons c l ih =>
    intro b s hc
    have hc₁ : c ≠ "/" := hc c (by simp)
    rw [List.foldl_cons]
    have hstep : pushComponent ⟨b, s⟩ c = ⟨b, s ++ [c]⟩ := by
      simp [pushComponent, hc₁]
    rw [hstep, ih b (s ++ [c]) fun x hx => hc x (by simp [hx])]
    simp

/-- Each segment of a reassembled path is a non-root element of the base
path or of the pushed component list. -/
theorem foldl_push_segs (l : List String) :
    ∀ p : RustPath, ∀ x ∈ (List.foldl pushComponent p l).segs,
      x ∈ p.segs ∨ (x ∈ l ∧ x ≠ "/") := by
  induction l with
  | nil => intro p x hx; exact Or.inl hx
  | cons c l ih =>
    intro p x hx
    rcases ih (pushComponent p c) x hx with h | h
    · unfold pushComponent at h
      split at h
      · simp at h
      · next hc =>
        rcases List.mem_append.mp h with h' | h'
        · exact Or.inl h'
        · refine Or.inr ⟨by simp [List.mem_singleton.mp h'], ?_⟩
          rw [List.mem_singleton.mp h']; exact hc
    · exact Or.inr ⟨by simp [h.1], h.2⟩

/-- C5 counterexample input, spelled out: normalizing the absolute path
`/..` pops the root marker itself and produces the empty relative path. -/
theorem normalize_root_dotdot :
    normalize [] ⟨true, [".."]⟩ = some ⟨false, []⟩ := by decide

/-- **C5 (counterexample).** The claim says the normalizer's result is
always an absolute path and that an absolute path with more `..` segments
than named segments normalizes to the root.  Normalizing `/..` instead
yields the empty *relative* path: the root marker sits on the stack like any
other segment and the final `..` pops it. -/
theorem C5_counterexample :
    normalize [] ⟨true, [".."]⟩ = some ⟨false, []⟩ ∧
    (RustPath.mk false []).abs = false ∧
    RustPath.mk false [] ≠ RustPath.mk true [] := by decide

/-- **C5 (amended).** The normalizer walks components left to right keeping
a stack that *includes* the root marker as an ordinary element: `.` is
skipped, `..` pops the last stack element — the root marker included — and
is a silent no-op only once the stack is entirely empty, and any other
segment is pushed.  Consequently an absolute path of named segments followed
by `k` `..` segments normalizes to an absolute path while `k` does not
exceed the number of named segments, and to the empty *relative* path (the
root marker itself having been popped) as soon as it does. -/
theorem C5_normalize_stack (names : List String) (k : Nat)
    (hclean : ∀ x ∈ names, x ≠ "." ∧ x ≠ ".." ∧ x ≠ "/") :
    normalize [] ⟨true, names ++ List.replicate k ".."⟩ =
      some (if k ≤ names.length
            then ⟨true, names.take (names.length - k)⟩
            else ⟨false, []⟩) := by
  have habs' : rustAbsolute [] ⟨true, names ++ List.replicate k ".."⟩ =
      some ⟨true, names ++ List.replicate k ".."⟩ := rfl
  unfold normalize
  rw [habs', Option.map_some']
  have hcomp : pathComponents ⟨true, names ++ List.replicate k ".."⟩ =
      "/" :: (names ++ List.replicate k "..") := rfl
  rw [hcomp, List.foldl_cons]
  have h1 : normStep [] "/" = ["/"] := by decide
  rw [h1, List.foldl_append,
    foldl_normStep_clean names ["/"]
      (fun x hx => ⟨(hclean x hx).1, (hclean x hx).2.1⟩),
    foldl_normStep_replicate]
  simp only [List.singleton_append, List.length_cons]
  by_cases hk : k ≤ names.length
  · rw [if_pos hk]
    have harith : (names.length + 1) - k = (names.length - k) + 1 := by omega
    rw [harith, List.take_succ_cons]
    unfold pathFromStack
    rw [List.foldl_cons]
    have h2 : pushComponent ⟨false, []⟩ "/" = ⟨true, []⟩ := by decide
    rw [h2, foldl_push_clean _ _ _
      (fun x hx => (hclean x (List.take_subset _ _ hx)).2.2)]
    simp
  · rw [if_neg hk]
    have harith : (names.length + 1) - k = 0 := by omega
    rw [harith, List.take_zero]
    rfl

/-- **C5 witness.** `/a/../..` normalizes to the empty relative path. -/
theorem C5_normalize_stack_witness :
    normalize [] ⟨true, ["a", "..", ".."]⟩ = some ⟨false, []⟩ := by
  have h := C5_normalize_stack ["a"] 2 (by decide)
  simpa using h

/-- **C6 (counterexample).** Normalization is not idempotent: `/..`
normalizes to the empty relative path, and normalizing that again fails
(`std::path::absolute` rejects the empty path), so
`normalize ∘ normalize ≠ normalize` there.  Moreover the relative path
`a/./b/../c` does not normalize to `a/c`: the path is first made absolute,
so the result is absolute (with working directory `/`, it is `/a/c`). -/
theorem C6_counterexample :
    (normalize [] ⟨true, [".."]⟩ = some ⟨false, []⟩ ∧
      normalize [] ⟨false, []⟩ = none) ∧
    (normalize [] ⟨false, ["a", ".", "b", "..", "c"]⟩ =
        some ⟨true, ["a", "c"]⟩ ∧
      RustPath.mk true ["a", "c"] ≠ RustPath.mk false ["a", "c"]) := by decide

/-- **C6 (amended).** Normalization is idempotent on every path whose
normalization is still absolute (in particular on every path that stays
within any workspace): such a result is returned unchanged by a second
normalization, under any working directory.  And normalizing the *absolute*
path `/a/./b/../c` yields `/a/c` (the relative `a/./b/../c` of the claim is
first absolutized against the working directory, so it yields `cwd/a/c`,
never the relative `a/c`). -/
theorem C6_normalize_idem (cwd cwd' : List String) (p q : RustPath)
    (h : normalize cwd p = some q) (habs : q.abs = true) :
    normalize cwd' q = some q ∧
    normalize [] ⟨true, ["a", ".", "b", "..", "c"]⟩ = some ⟨true, ["a", "c"]⟩ := by
  refine ⟨?_, by decide⟩
  unfold normalize at h
  rcases hq' : rustAbsolute cwd p with _ | q'
  · rw [hq'] at h; simp at h
  rw [hq'] at h
  simp only [Option.map_some', Option.some.injEq] at h
  -- The output stack contains no `.` or `..`, and the reassembled segments
  -- additionally exclude the root marker.
  set stack := (pathComponents q').foldl normStep [] with hstack
  have hstackclean : ∀ x ∈ stack, x ≠ "." ∧ x ≠ ".." :=
    foldl_normStep_mem _ [] (by simp)
  have hsegs : ∀ x ∈ q.segs, x ≠ "." ∧ x ≠ ".." ∧ x ≠ "/" := by
    intro x hx
    rw [← h] at hx
    rcases foldl_push_segs stack ⟨false, []⟩ x hx with h' | h'
    · simp at h'
    · exact ⟨(hstackclean x h'.1).1, (hstackclean x h'.1).2, h'.2⟩
  -- Renormalizing `q` just replays its own segments.
  have habs' : rustAbsolute cwd' q = some q := by
    unfold rustAbsolute
    rw [habs]
    simp
  unfold normalize
  rw [habs', Option.map_some']
  have hcomp : pathComponents q = "/" :: q.segs := by
    unfold pathComponents
    rw [habs]
    simp
  rw [hcomp, List.foldl_cons]
  have h1 : normStep [] "/" = ["/"] := by decide
  rw [h1, foldl_normStep_clean _ _ (fun x hx => ⟨(hsegs x hx).1, (hsegs x hx).2.1⟩)]
  unfold pathFromStack
  rw [List.singleton_append, List.foldl_cons]
  have h2 : pushComponent ⟨false, []⟩ "/" = ⟨true, []⟩ := by decide
  rw [h2, foldl_push_clean _ _ _ (fun x hx => (hsegs x hx).2.2)]
  cases q with
  | mk b segs =>
    subst habs
    simp

/-- **C6 witness.** The already-normalized absolute path `/a/c` (obtained by
normalizing `/a/./b/../c`) is returned unchanged by a second normalization,
under a different working directory. -/
theorem C6_normalize_idem_witness :
    normalize ["x"] ⟨true, ["a", "c"]⟩ = some ⟨true, ["a", "c"]⟩ :=
  (C6_normalize_idem [] ["x"] ⟨true, ["a", ".", "b", "..", "c"]⟩
    ⟨true, ["a", "c"]⟩ (by decide) rfl).1

/-! ## Lemmas about `collectE` -/

/-- A successful collect pairs every element with its unwrapped value. -/
theorem collectE_ok_forall₂ {ε α : Type} :
    ∀ (l : List (Except ε α)) (res : List α), collectE l = .ok res →
      List.Forall₂ (fun x b => x = Except.ok b) l res := by
  intro l
  induction l with
  | nil =>
    intro res h
    unfold collectE at h
    cases h
    exact List.Forall₂.nil
  | cons x l ih =>
    intro res h
    cases x with
    | error e => unfold collectE at h; cases h
    | ok a =>
      unfold collectE at h
      cases hrest : collectE l with
      | error e => rw [hrest] at h; simp [Except.map] at h
      | ok bs =>
        rw [hrest] at h
        simp only [Except.map, Except.ok.injEq] at h
        rw [← h]
        exact List.Forall₂.cons rfl (ih bs hrest)

/-- Conversely, element-wise success collects to the value list. -/
theorem collectE_ok_of_forall₂ {ε α : Type}
    {l : List (Except ε α)} {res : List α}
    (h : List.Forall₂ (fun x b => x = Except.ok b) l res) :
    collectE l = .ok res := by
  induction h with
  | nil => rfl
  | cons hab _ ih =>
    next a b _ _ =>
      rw [hab]
      unfold collectE
      rw [ih]
      rfl

/-- A failing element fails the whole collect (with some element's error). -/
theorem collectE_error_of_mem {ε α : Type} (e : ε) :
    ∀ l : List (Except ε α), Except.error e ∈ l →
      ∃ e', collectE l = .error e' := by
  intro l
  induction l with
  | nil => intro h; cases h
  | cons x l ih =>
    intro hmem
    cases x with
    | error e₀ => exact ⟨e₀, rfl⟩
    | ok a =>
      have hmem' : Except.error e ∈ l := by
        rcases List.mem_cons.mp hmem with h | h
        · cases h
        · exact h
      rcases ih hmem' with ⟨e', he'⟩
      refine ⟨e', ?_⟩
      unfold collectE
      rw [he']
      rfl

/-- The collect fails with exactly the error of the first failing element. -/
theorem collectE_first_error {ε α : Type} (e : ε) :
    ∀ (pre post : List (Except ε α)), (∀ x ∈ pre, ∃ v, x = .ok v) →
      collectE (pre ++ .error e :: post) = .error e := by
  intro pre
  induction pre with
  | nil => intro post _; rfl
  | cons x pre ih =>
    intro post hpre
    rcases hpre x (by simp) with ⟨v, hv⟩
    subst hv
    have := ih post fun y hy => hpre y (by simp [hy])
    rw [List.cons_append]
    unfold collectE
    rw [this]
    rfl

/-- `Except.bind` on a success. -/
theorem except_bind_ok {ε α β : Type} (f : α → Except ε β) (a : α) :
    (Except.ok a : Except ε α).bind f = f a := rfl

/-- `Except.bind` on a failure. -/
theorem except_bind_error {ε α β : Type} (f : α → Except ε β) (e : ε) :
    (Except.error e : Except ε α).bind f = .error e := rfl

/-- `Except.map` on a success. -/
theorem except_map_ok {ε α β : Type} (f : α → β) (a : α) :
    Except.map f (.ok a : Except ε α) = .ok (f a) := rfl

/-- `Except.map` on a failure. -/
theorem except_map_error {ε α β : Type} (f : α → β) (e : ε) :
    Except.map f (.error e : Except ε α) = .error e := rfl

/-- A `Forall₂` pairing covers every element of its right list. -/
theorem forall₂_exists_left {α β : Type} {R : α → β → Prop} :
    ∀ {l₁ : List α} {l₂ : List β}, List.Forall₂ R l₁ l₂ →
      ∀ b ∈ l₂, ∃ a ∈ l₁, R a b := by
  intro l₁ l₂ h
  induction h with
  | nil => intro b hb; cases hb
  | cons hab _ ih =>
    intro b hb
    rcases List.mem_cons.mp hb with h' | h'
    · subst h'
      exact ⟨_, by simp, hab⟩
    · rcases ih b h' with ⟨a, ha, hr⟩
      exact ⟨a, by simp [ha], hr⟩

/-! ## The sandbox boundary (C1) and the shape of `list` results -/

/-- **C1.** If the lexical normalization of the workspace root joined with a
relative path `p` is not prefixed by the root, then `read_to_string` and
`list` both fail with the `ExternalPathError` (`OutsideWorkspace`) for `p` —
and they do so for *every* ambient filesystem `fs`, i.e. the boundary check
runs on each call before any I/O is consulted. -/
theorem C1_sandbox (h : FsHost) (fs : Fs) (cwd : List String) (p : RustPath)
    (hrel : p.abs = false) (resolved : RustPath)
    (hres : normalize cwd (pathJoin h.rootPath p) = some resolved)
    (hout : pathStarts resolved h.rootPath = false) :
    h.read_to_string fs cwd p = .error (.externalPath (outsideMsg p)) ∧
    h.list fs cwd p = .error (.externalPath (outsideMsg p)) := by
  have hused : p.abs = false := hrel
  refine ⟨?_, ?_⟩
  · unfold FsHost.read_to_string
    rw [hres]
    simp [hout]
  · unfold FsHost.list
    rw [hres]
    simp [hout]

/-- **C1 witness.** With root `/ws`, the relative path `foo/../../../bar`
normalizes to the relative path `bar`, which is not under the root, so both
operations reject it — here on a filesystem that would answer every call. -/
theorem C1_sandbox_witness :
    (FsHost.mk ["ws"]).read_to_string
        ⟨fun _ => .ok "data", fun _ => .ok []⟩ []
        ⟨false, ["foo", "..", "..", "..", "bar"]⟩ =
      .error (.externalPath (outsideMsg ⟨false, ["foo", "..", "..", "..", "bar"]⟩)) ∧
    (FsHost.mk ["ws"]).list
        ⟨fun _ => .ok "data", fun _ => .ok []⟩ []
        ⟨false, ["foo", "..", "..", "..", "bar"]⟩ =
      .error (.externalPath (outsideMsg ⟨false, ["foo", "..", "..", "..", "bar"]⟩)) :=
  C1_sandbox (FsHost.mk ["ws"]) ⟨fun _ => .ok "data", fun _ => .ok []⟩ []
    ⟨false, ["foo", "..", "..", "..", "bar"]⟩ rfl
    ⟨false, ["bar"]⟩ (by decide) (by decide)

/-- A successful `FsHost::list` call pairs each raw directory entry with the
`Entry` built from it: the caller-supplied path joined with the child's
name, and `File` exactly for a regular file. -/
theorem list_ok_forall₂ (h : FsHost) (fs : Fs) (cwd : List String)
    (p resolved : RustPath) (raws : List (Except String RawEntry))
    (es : List Entry)
    (hres : normalize cwd (pathJoin h.rootPath p) = some resolved)
    (hdir : fs.readDir resolved = .ok raws)
    (hok : h.list fs cwd p = .ok es) :
    List.Forall₂ (fun r e => ∃ de ft, r = .ok de ∧ de.fileType = .ok ft ∧
      e = ⟨pathJoin p ⟨false, [de.name]⟩,
        if ft.is_file then .File else .Directory⟩) raws es := by
  unfold FsHost.list at hok
  rw [hres] at hok
  rcases Bool.eq_false_or_eq_true (pathStarts resolved h.rootPath) with
    hstart | hstart
  case inr =>
    simp only [hstart] at hok
    simp at hok
  case inl =>
    simp only [hstart, hdir, Bool.not_true, Bool.false_eq_true,
      if_false] at hok
    cases hcoll : collectE (raws.map fun r => r.bind (entryOfRaw p)) with
    | error e =>
      rw [hcoll] at hok
      simp at hok
    | ok es' =>
      rw [hcoll] at hok
      simp only [Except.ok.injEq] at hok
      subst hok
      have h2 := collectE_ok_forall₂ _ _ hcoll
      rw [List.forall₂_map_left_iff] at h2
      refine h2.imp ?_
      intro r e hre
      cases r with
      | error e₀ =>
        rw [except_bind_error] at hre
        cases hre
      | ok de =>
        rw [except_bind_ok] at hre
        unfold entryOfRaw at hre
        cases hft : de.fileType with
        | error e₁ =>
          rw [hft, except_map_error] at hre
          cases hre
        | ok ft =>
          rw [hft, except_map_ok] at hre
          simp only [Except.ok.injEq] at hre
          exact ⟨de, ft, rfl, hft, hre.symm⟩

/-- **C7.** Every entry of a successful `list(p)` call has its `path` field
equal to the original caller-supplied `p` joined with that child's file
name — in particular it keeps `p`'s (relative) form and is never the
normalized absolute filesystem path. -/
theorem C7_entry_paths (h : FsHost) (fs : Fs) (cwd : List String)
    (p resolved : RustPath) (raws : List (Except String RawEntry))
    (es : List Entry)
    (hres : normalize cwd (pathJoin h.rootPath p) = some resolved)
    (hdir : fs.readDir resolved = .ok raws)
    (hok : h.list fs cwd p = .ok es) :
    List.Forall₂ (fun r e => ∃ de, r = .ok de ∧
        e.path = pathJoin p ⟨false, [de.name]⟩) raws es ∧
    ∀ e ∈ es, e.path.abs = p.abs ∧ ∃ name, e.path.segs = p.segs ++ [name] := by
  have hall := list_ok_forall₂ h fs cwd p resolved raws es hres hdir hok
  constructor
  · refine hall.imp ?_
    intro r e hre
    rcases hre with ⟨de, ft, hr, _, he⟩
    exact ⟨de, hr, by rw [he]⟩
  · intro e he
    rcases forall₂_exists_left hall e he with ⟨r, _, hre⟩
    rcases hre with ⟨de, ft, _, _, hee⟩
    subst hee
    exact ⟨rfl, de.name, rfl⟩

/-- **C7 witness.** Listing `d` under root `/ws` returns entries whose paths
are `d/f.txt` and `d/sub` — the caller's relative path joined with each
child name. -/
theorem C7_entry_paths_witness :
    List.Forall₂ (fun (r : Except String RawEntry) (e : Entry) =>
        ∃ de, r = .ok de ∧
        e.path = pathJoin ⟨false, ["d"]⟩ ⟨false, [de.name]⟩)
      [.ok ⟨"f.txt", .ok .file⟩, .ok ⟨"sub", .ok .dir⟩]
      [⟨⟨false, ["d", "f.txt"]⟩, .File⟩, ⟨⟨false, ["d", "sub"]⟩, .Directory⟩] ∧
    ∀ e ∈ ([⟨⟨false, ["d", "f.txt"]⟩, .File⟩,
        ⟨⟨false, ["d", "sub"]⟩, .Directory⟩] : List Entry),
      e.path.abs = (false : Bool) ∧ ∃ name, e.path.segs = ["d"] ++ [name] :=
  C7_entry_paths (FsHost.mk ["ws"])
    ⟨fun _ => .error "no file",
      fun r => if r = ⟨true, ["ws", "d"]⟩
        then .ok [.ok ⟨"f.txt", .ok .file⟩, .ok ⟨"sub", .ok .dir⟩]
        else .error "no dir"⟩
    [] ⟨false, ["d"]⟩ ⟨true, ["ws", "d"]⟩
    [.ok ⟨"f.txt", .ok .file⟩, .ok ⟨"sub", .ok .dir⟩]
    [⟨⟨false, ["d", "f.txt"]⟩, .File⟩, ⟨⟨false, ["d", "sub"]⟩, .Directory⟩]
    (by decide) (by decide) (by decide)

/-- **C8.** `list` is all-or-nothing: if `file_type()` fails for any single
child of the listed directory, the entire call fails with a propagated I/O
error (`IoFailure`), and in particular no partial entry list is returned. -/
theorem C8_list_atomic (h : FsHost) (fs : Fs) (cwd : List String)
    (p resolved : RustPath) (raws : List (Except String RawEntry))
    (hres : normalize cwd (pathJoin h.rootPath p) = some resolved)
    (hstart : pathStarts resolved h.rootPath = true)
    (hdir : fs.readDir resolved = .ok raws)
    (de : RawEntry) (emsg : String)
    (hbad : Except.ok de ∈ raws) (hft : de.fileType = .error emsg) :
    (∃ e, h.list fs cwd p = .error (.io e)) ∧
    ∀ es, h.list fs cwd p ≠ .ok es := by
  have hval : (Except.ok de).bind (entryOfRaw p) = .error emsg := by
    show entryOfRaw p de = .error emsg
    unfold entryOfRaw
    rw [hft]
    rfl
  have hmem : Except.error emsg ∈ raws.map fun r => r.bind (entryOfRaw p) :=
    List.mem_map.mpr ⟨.ok de, hbad, hval⟩
  rcases collectE_error_of_mem emsg _ hmem with ⟨e', he'⟩
  have hlist : h.list fs cwd p = .error (.io e') := by
    unfold FsHost.list
    rw [hres]
    simp [hstart, hdir, he']
  refine ⟨⟨e', hlist⟩, fun es hcontra => ?_⟩
  rw [hlist] at hcontra
  cases hcontra

/-- **C8 witness.** A directory with a child whose type cannot be determined
makes the whole `list` call fail. -/
theorem C8_list_atomic_witness :
    (∃ e, (FsHost.mk ["ws"]).list
        ⟨fun _ => .error "no file",
          fun _ => .ok [.ok ⟨"good", .ok .file⟩, .ok ⟨"bad", .error "boom"⟩]⟩
        [] ⟨false, ["d"]⟩ = .error (.io e)) ∧
    ∀ es, (FsHost.mk ["ws"]).list
        ⟨fun _ => .error "no file",
          fun _ => .ok [.ok ⟨"good", .ok .file⟩, .ok ⟨"bad", .error "boom"⟩]⟩
        [] ⟨false, ["d"]⟩ ≠ .ok es :=
  C8_list_atomic (FsHost.mk ["ws"])
    ⟨fun _ => .error "no file",
      fun _ => .ok [.ok ⟨"good", .ok .file⟩, .ok ⟨"bad", .error "boom"⟩]⟩
    [] ⟨false, ["d"]⟩ ⟨true, ["ws", "d"]⟩
    [.ok ⟨"good", .ok .file⟩, .ok ⟨"bad", .error "boom"⟩]
    (by decide) (by decide) (by decide) ⟨"bad", .error "boom"⟩ "boom"
    (by simp) rfl

/-- **C10.** In a successful `list` call a child's kind is `File` exactly
when the filesystem reports it as a regular file, and `Directory` in every
other case — symlinks, sockets and all other types included — since the
code has no third branch. -/
theorem C10_entry_kinds (h : FsHost) (fs : Fs) (cwd : List String)
    (p resolved : RustPath) (raws : List (Except String RawEntry))
    (es : List Entry)
    (hres : normalize cwd (pathJoin h.rootPath p) = some resolved)
    (hdir : fs.readDir resolved = .ok raws)
    (hok : h.list fs cwd p = .ok es) :
    List.Forall₂ (fun r e => ∃ de ft, r = .ok de ∧ de.fileType = .ok ft ∧
      (e.kind = .File ↔ ft = .file) ∧
      (e.kind = .Directory ↔ ft ≠ .file)) raws es := by
  refine (list_ok_forall₂ h fs cwd p resolved raws es hres hdir hok).imp ?_
  intro r e hre
  rcases hre with ⟨de, ft, hr, hft, he⟩
  refine ⟨de, ft, hr, hft, ?_, ?_⟩
  · rw [he]
    cases ft <;> simp [FileType.is_file]
  · rw [he]
    cases ft <;> simp [FileType.is_file]

/-- **C10 witness.** A regular file maps to `File`; a directory and a
symlink both map to `Directory`. -/
theorem C10_entry_kinds_witness :
    List.Forall₂ (fun (r : Except String RawEntry) (e : Entry) =>
        ∃ de ft, r = .ok de ∧
        de.fileType = .ok ft ∧
        (e.kind = .File ↔ ft = .file) ∧
        (e.kind = .Directory ↔ ft ≠ .file))
      [.ok ⟨"f", .ok .file⟩, .ok ⟨"d", .ok .dir⟩, .ok ⟨"s", .ok .symlink⟩]
      [⟨⟨false, ["x", "f"]⟩, .File⟩, ⟨⟨false, ["x", "d"]⟩, .Directory⟩,
        ⟨⟨false, ["x", "s"]⟩, .Directory⟩] :=
  C10_entry_kinds (FsHost.mk ["ws"])
    ⟨fun _ => .error "no file",
      fun _ => .ok [.ok ⟨"f", .ok .file⟩, .ok ⟨"d", .ok .dir⟩,
        .ok ⟨"s", .ok .symlink⟩]⟩
    [] ⟨false, ["x"]⟩ ⟨true, ["ws", "x"]⟩
    [.ok ⟨"f", .ok .file⟩, .ok ⟨"d", .ok .dir⟩, .ok ⟨"s", .ok .symlink⟩]
    [⟨⟨false, ["x", "f"]⟩, .File⟩, ⟨⟨false, ["x", "d"]⟩, .Directory⟩,
      ⟨⟨false, ["x", "s"]⟩, .Directory⟩]
    (by decide) (by decide) (by decide)

/-! ## Lemmas about the target-pattern grammar primitives -/

/-- `toStr ":"` spelled out. -/
theorem toStr_colon : toStr ":" = [':'] := rfl

/-- `toStr "//"` spelled out. -/
theorem toStr_slashes : toStr "//" = ['/', '/'] := rfl

/-- `toStr ":all"` splits off its colon. -/
theorem toStr_colon_all : toStr ":all" = ':' :: toStr "all" := rfl

/-- `stripPre` succeeds exactly on the evident decomposition. -/
theorem stripPre_eq_some :
    ∀ (pre s r : Str), stripPre pre s = some r ↔ s = pre ++ r := by
  intro pre
  induction pre with
  | nil =>
    intro s r
    simp [stripPre]
  | cons p ps ih =>
    intro s r
    cases s with
    | nil => simp [stripPre]
    | cons c cs =>
      by_cases hp : p = c
      · subst hp
        simp [stripPre, ih cs r]
      · simp [stripPre, hp, Ne.symm hp]

/-- Stripping an explicitly appended leading pattern. -/
theorem stripPre_append (pre s : Str) : stripPre pre (pre ++ s) = some s :=
  (stripPre_eq_some pre (pre ++ s) s).mpr rfl

/-- `stripSuf` succeeds exactly on the evident decomposition. -/
theorem stripSuf_eq_some (suf s r : Str) :
    stripSuf suf s = some r ↔ s = r ++ suf := by
  unfold stripSuf
  cases hp : stripPre suf.reverse s.reverse with
  | none =>
    simp only [Option.map_none']
    constructor
    · intro h; cases h
    · intro h
      subst h
      have hss : stripPre suf.reverse ((r ++ suf).reverse) =
          some r.reverse := (stripPre_eq_some _ _ _).mpr (by simp)
      rw [hss] at hp
      cases hp
  | some r' =>
    have hs : s.reverse = suf.reverse ++ r' := (stripPre_eq_some _ _ _).mp hp
    simp only [Option.map_some', Option.some.injEq]
    constructor
    · intro h
      subst h
      have := congrArg List.reverse hs
      simpa using this
    · intro h
      subst h
      have := congrArg List.reverse hs
      simp at this
      simp [this]

/-- Stripping an explicitly appended trailing pattern. -/
theorem stripSuf_append (suf s : Str) : stripSuf suf (s ++ suf) = some s :=
  (stripSuf_eq_some suf (s ++ suf) s).mpr rfl

/-- `stripSuf` succeeds exactly on strings ending in the pattern. -/
theorem stripSuf_isSome_iff (suf s : Str) :
    (∃ r, stripSuf suf s = some r) ↔ suf <:+ s := by
  constructor
  · intro ⟨r, hr⟩
    exact ⟨r, ((stripSuf_eq_some suf s r).mp hr).symm⟩
  · intro ⟨t, ht⟩
    exact ⟨t, (stripSuf_eq_some suf s t).mpr ht.symm⟩

/-- `splitOn` never returns the empty list. -/
theorem splitOn_ne_nil (sep : Char) : ∀ s : Str, splitOn sep s ≠ [] := by
  intro s
  induction s with
  | nil => simp [splitOn]
  | cons c rest ih =>
    cases hr : splitOn sep rest with
    | nil => simp [splitOn, hr]
    | cons a as => by_cases hc : c = sep <;> simp [splitOn, hr, hc]

/-- A string without the separator is one single chunk. -/
theorem splitOn_no_sep (sep : Char) :
    ∀ s : Str, (∀ c ∈ s, c ≠ sep) → splitOn sep s = [s] := by
  intro s
  induction s with
  | nil => intro _; rfl
  | cons c rest ih =>
    intro h
    have hr := ih fun c hc => h c (by simp [hc])
    have hc : c ≠ sep := h c (by simp)
    simp [splitOn, hr, hc]

/-- Splitting at an explicit first separator. -/
theorem splitOn_append (sep : Char) :
    ∀ (a b : Str), (∀ c ∈ a, c ≠ sep) →
      splitOn sep (a ++ sep :: b) = a :: splitOn sep b := by
  intro a
  induction a with
  | nil =>
    intro b _
    cases hb : splitOn sep b with
    | nil => exact absurd hb (splitOn_ne_nil sep b)
    | cons s ss => simp [splitOn, hb]
  | cons c a ih =>
    intro b h
    have hc : c ≠ sep := h c (by simp)
    have ha := ih b fun x hx => h x (by simp [hx])
    cases hb : splitOn sep b with
    | nil => exact absurd hb (splitOn_ne_nil sep b)
    | cons s ss =>
      rw [List.cons_append]
      rw [hb] at ha
      simp [splitOn, ha, hc]

/-- The number of chunks is the number of separators plus one. -/
theorem length_splitOn (sep : Char) :
    ∀ s : Str, (splitOn sep s).length = s.count sep + 1 := by
  intro s
  induction s with
  | nil => simp [splitOn]
  | cons c rest ih =>
    cases hr : splitOn sep rest with
    | nil => exact absurd hr (splitOn_ne_nil sep rest)
    | cons a as =>
      rw [hr] at ih
      simp only [List.length_cons] at ih
      by_cases hc : c = sep
      · subst hc
        simp only [splitOn, hr, eq_self_iff_true, if_true,
          List.length_cons, List.count_cons_self]
        omega
      · simp only [splitOn, hr, if_neg hc, List.length_cons,
          List.count_cons_of_ne fun h => hc h.symm]
        omega

/-- A string with exactly one separator splits around it. -/
theorem count_one_split (sep : Char) (r : Str) (h : r.count sep = 1) :
    ∃ a b, r = a ++ sep :: b ∧ sep ∉ a ∧ sep ∉ b := by
  have hmem : sep ∈ r := by
    by_contra hmem
    rw [List.count_eq_zero.mpr hmem] at h
    cases h
  rcases List.append_of_mem hmem with ⟨a, b, rfl⟩
  rw [List.count_append, List.count_cons_self] at h
  exact ⟨a, b, rfl,
    List.count_eq_zero.mp (by omega),
    List.count_eq_zero.mp (by omega)⟩

/-! ## Evaluating `parse` along its match tree -/

/-- `parse` on an input without the leading `//`. -/
theorem parse_no_pre (s : Str)
    (h : stripPre (toStr "//") s = none) :
    TargetPattern.parse s = .error ⟨msgMissingPre s⟩ := by
  unfold TargetPattern.parse
  rw [h]

/-- `parse` on an input whose remainder holds no colon. -/
theorem parse_single (s r single : Str)
    (h : stripPre (toStr "//") s = some r)
    (hs : splitOn ':' r = [single]) :
    TargetPattern.parse s =
      match stripSuf (toStr "/...") single with
      | some package => .ok ⟨package, .Descendants⟩
      | none => .error ⟨msgMissingTarget single⟩ := by
  unfold TargetPattern.parse
  rw [h]
  dsimp only
  rw [hs]

/-- `parse` on an input whose remainder holds exactly one colon. -/
theorem parse_two (s r package target : Str)
    (h : stripPre (toStr "//") s = some r)
    (hs : splitOn ':' r = [package, target]) :
    TargetPattern.parse s =
      if target = toStr "all" then .ok ⟨package, .Package⟩
      else .ok ⟨package, .SingleTarget target⟩ := by
  unfold TargetPattern.parse
  rw [h]
  dsimp only
  rw [hs]

/-- `parse` on an input whose remainder holds two or more colons. -/
theorem parse_many (s r : Str) (x y z : Str) (tail : List Str)
    (h : stripPre (toStr "//") s = some r)
    (hs : splitOn ':' r = x :: y :: z :: tail) :
    TargetPattern.parse s = .error ⟨msgTooManyColons s⟩ := by
  unfold TargetPattern.parse
  rw [h]
  dsimp only
  rw [hs]

/-! ## The claims about the grammar (C2, C3, C4) -/

/-- **C2 (counterexample).** The round trip fails on constructible values:
`SingleTarget "all"` formats to `//pkg:all`, which parses back as the
`Package` scope, not as `SingleTarget "all"`. -/
theorem C2_counterexample :
    TargetPattern.parse
        (TargetPattern.format ⟨toStr "pkg", .SingleTarget (toStr "all")⟩) =
      .ok ⟨toStr "pkg", .Package⟩ ∧
    TargetPattern.mk (toStr "pkg") (.SingleTarget (toStr "all")) ≠
      ⟨toStr "pkg", .Package⟩ := by decide

/-- **C2 (amended).** `parse (format t) = t` holds for every `TargetPattern`
whose package contains no `:` and whose scope, when it is
`SingleTarget name`, has a name that contains no `:` and is not the literal
`all`. -/
theorem C2_round_trip (t : TargetPattern)
    (hpkg : ':' ∉ t.package)
    (hscope : match t.scope with
      | .SingleTarget n => ':' ∉ n ∧ n ≠ toStr "all"
      | _ => True) :
    TargetPattern.parse (TargetPattern.format t) = .ok t := by
  rcases t with ⟨pkg, scope⟩
  simp only at hpkg
  cases scope with
  | SingleTarget n =>
    simp only at hscope
    have hn : ':' ∉ n := hscope.1
    have hall : n ≠ toStr "all" := hscope.2
    have hsp : stripPre (toStr "//")
        (TargetPattern.format ⟨pkg, .SingleTarget n⟩) =
        some (pkg ++ ':' :: n) := by
      apply (stripPre_eq_some _ _ _).mpr
      simp [TargetPattern.format, toStr_colon]
    have hsplit : splitOn ':' (pkg ++ ':' :: n) = [pkg, n] := by
      rw [splitOn_append ':' pkg n fun c hc h => hpkg (h ▸ hc),
        splitOn_no_sep ':' n fun c hc h => hn (h ▸ hc)]
    rw [parse_two _ _ _ _ hsp hsplit, if_neg hall]
  | Package =>
    have hsp : stripPre (toStr "//")
        (TargetPattern.format ⟨pkg, .Package⟩) =
        some (pkg ++ ':' :: toStr "all") := by
      apply (stripPre_eq_some _ _ _).mpr
      simp [TargetPattern.format, toStr_colon_all]
    have hsplit : splitOn ':' (pkg ++ ':' :: toStr "all") =
        [pkg, toStr "all"] := by
      rw [splitOn_append ':' pkg _ fun c hc h => hpkg (h ▸ hc),
        splitOn_no_sep ':' (toStr "all") (by decide)]
    rw [parse_two _ _ _ _ hsp hsplit, if_pos rfl]
  | Descendants =>
    have hsp : stripPre (toStr "//")
        (TargetPattern.format ⟨pkg, .Descendants⟩) =
        some (pkg ++ toStr "/...") := by
      apply (stripPre_eq_some _ _ _).mpr
      simp [TargetPattern.format]
    have hsplit : splitOn ':' (pkg ++ toStr "/...") =
        [pkg ++ toStr "/..."] := by
      apply splitOn_no_sep
      intro c hc
      rcases List.mem_append.mp hc with h | h
      · exact fun he => hpkg (he ▸ h)
      · have hdots : ∀ x ∈ toStr "/...", x ≠ ':' := by decide
        exact hdots c h
    rw [parse_single _ _ _ hsp hsplit, stripSuf_append]

/-- **C2 witness.** `//a/b:c` round-trips. -/
theorem C2_round_trip_witness :
    TargetPattern.parse
        (TargetPattern.format ⟨toStr "a/b", .SingleTarget (toStr "c")⟩) =
      .ok ⟨toStr "a/b", .SingleTarget (toStr "c")⟩ :=
  C2_round_trip ⟨toStr "a/b", .SingleTarget (toStr "c")⟩
    (by decide) (by decide)

/-- **C3 (counterexample).** `parse "//pkg"` does fail with
`MissingTargetOrDescendants`, but — because the Rust `match` binder shadows
the function argument `pattern` — its message carries only `pkg`, and the
offending input text `//pkg` does not occur in it. -/
theorem C3_counterexample :
    TargetPattern.parse (toStr "//pkg") =
      .error ⟨msgMissingTarget (toStr "pkg")⟩ ∧
    ¬ (toStr "//pkg" <:+: msgMissingTarget (toStr "pkg")) := by decide

/-- **C3 (amended).** `parse` fails with `MissingPrefix` exactly when the
input does not start with `//`; for inputs starting with `//` (remainder
`r`), it fails with `MissingTargetOrDescendants` exactly when `r` has no `:`
and does not end in `/...`, fails with `TooManyColons` exactly when `r` has
two or more `:`, and succeeds in every other case.  The `MissingPrefix` and
`TooManyColons` messages contain the full input text; the
`MissingTargetOrDescendants` message contains only the input with its
leading `//` removed. -/
theorem C3_grammar (s : Str) :
    (¬ (toStr "//" <+: s) →
      TargetPattern.parse s = .error ⟨msgMissingPre s⟩ ∧
        s <:+: msgMissingPre s) ∧
    (∀ r, stripPre (toStr "//") s = some r →
      ((':' ∉ r ∧ ¬ (toStr "/..." <:+ r)) →
        TargetPattern.parse s = .error ⟨msgMissingTarget r⟩ ∧
          r <:+: msgMissingTarget r) ∧
      (2 ≤ r.count ':' →
        TargetPattern.parse s = .error ⟨msgTooManyColons s⟩ ∧
          s <:+: msgTooManyColons s) ∧
      ((':' ∉ r ∧ toStr "/..." <:+ r) ∨ r.count ':' = 1 →
        ∃ t, TargetPattern.parse s = .ok t)) := by
  refine ⟨?_, ?_⟩
  · intro hnp
    cases hsp : stripPre (toStr "//") s with
    | some r =>
      exact absurd ⟨r, ((stripPre_eq_some _ _ _).mp hsp).symm⟩ hnp
    | none =>
      refine ⟨parse_no_pre s hsp, ?_⟩
      exact ⟨toStr "Failed to parse `",
        toStr "`, target patterns must start with `//`.", rfl⟩
  · intro r hsp
    refine ⟨?_, ?_, ?_⟩
    · intro ⟨hnc, hns⟩
      have hsplit : splitOn ':' r = [r] :=
        splitOn_no_sep ':' r fun c hc h => hnc (h ▸ hc)
      have hsu : stripSuf (toStr "/...") r = none := by
        cases hsu : stripSuf (toStr "/...") r with
        | none => rfl
        | some pkg =>
          exact absurd ((stripSuf_isSome_iff _ _).mp ⟨pkg, hsu⟩) hns
      refine ⟨?_, ?_⟩
      · rw [parse_single s r r hsp hsplit, hsu]
      · exact ⟨toStr "Failed to parse `",
          toStr "`, target patterns must end with `:target` or `/...`.", rfl⟩
    · intro hcnt
      have hlen : (splitOn ':' r).length = r.count ':' + 1 :=
        length_splitOn ':' r
      rcases hspl : splitOn ':' r with _ | ⟨x, _ | ⟨y, _ | ⟨z, tail⟩⟩⟩
      · rw [hspl] at hlen
        simp only [List.length_nil] at hlen
        omega
      · rw [hspl] at hlen
        simp only [List.length_cons, List.length_nil] at hlen
        omega
      · rw [hspl] at hlen
        simp only [List.length_cons, List.length_nil] at hlen
        omega
      · refine ⟨parse_many s r x y z tail hsp hspl, ?_⟩
        exact ⟨toStr "Failed to parse `",
          toStr "`, target patterns may contain at most one `:`.", rfl⟩
    · intro hok
      rcases hok with ⟨hnc, hsuf⟩ | hone
      · have hsplit : splitOn ':' r = [r] :=
          splitOn_no_sep ':' r fun c hc h => hnc (h ▸ hc)
        rcases (stripSuf_isSome_iff (toStr "/...") r).mpr hsuf with ⟨pkg, hsu⟩
        refine ⟨⟨pkg, .Descendants⟩, ?_⟩
        rw [parse_single s r r hsp hsplit, hsu]
      · rcases count_one_split ':' r hone with ⟨a, b, rfl, hna, hnb⟩
        have hsplit : splitOn ':' (a ++ ':' :: b) = [a, b] := by
          rw [splitOn_append ':' a b fun c hc h => hna (h ▸ hc),
            splitOn_no_sep ':' b fun c hc h => hnb (h ▸ hc)]
        by_cases hb : b = toStr "all"
        · exact ⟨⟨a, .Package⟩,
            by rw [parse_two s _ a b hsp hsplit, if_pos hb]⟩
        · exact ⟨⟨a, .SingleTarget b⟩,
            by rw [parse_two s _ a b hsp hsplit, if_neg hb]⟩

/-- **C3 witness.** `relative/pkg:t` is rejected for its missing prefix with
the full input in the message; `//pkg:a:b` is rejected for its two colons
with the full input in the message. -/
theorem C3_grammar_witness :
    TargetPattern.parse (toStr "relative/pkg:t") =
      .error ⟨msgMissingPre (toStr "relative/pkg:t")⟩ ∧
    TargetPattern.parse (toStr "//pkg:a:b") =
      .error ⟨msgTooManyColons (toStr "//pkg:a:b")⟩ :=
  ⟨((C3_grammar (toStr "relative/pkg:t")).1 (by decide)).1,
   (((C3_grammar (toStr "//pkg:a:b")).2 (toStr "pkg:a:b")
      (by decide)).2.1 (by decide)).1⟩

/-- **C4 (counterexample).** For package strings containing `:` the stated
shape fails: parsing `"//" ++ "a:b" ++ ":" ++ "c"` does not yield package
`a:b` with scope `SingleTarget "c"` — it fails with `TooManyColons`. -/
theorem C4_counterexample :
    TargetPattern.parse (toStr "//" ++ toStr "a:b" ++ toStr ":" ++ toStr "c") =
      .error ⟨msgTooManyColons
        (toStr "//" ++ toStr "a:b" ++ toStr ":" ++ toStr "c")⟩ ∧
    TargetPattern.parse (toStr "//" ++ toStr "a:b" ++ toStr ":" ++ toStr "c") ≠
      .ok ⟨toStr "a:b", .SingleTarget (toStr "c")⟩ := by decide

/-- **C4 (amended).** For every package string `p` and target-name string
`n` each containing no `:`, parsing `"//" ++ p ++ ":" ++ n` yields package
`p` with scope `Package` when `n` is exactly the literal `all` and
`SingleTarget n` otherwise; and no input whatsoever parses to
`SingleTarget "all"`. -/
theorem C4_single_target_rules :
    (∀ p n : Str, ':' ∉ p → ':' ∉ n →
      TargetPattern.parse (toStr "//" ++ p ++ toStr ":" ++ n) =
        .ok ⟨p, if n = toStr "all" then .Package else .SingleTarget n⟩) ∧
    (∀ (s : Str) (t : TargetPattern), TargetPattern.parse s = .ok t →
      t.scope ≠ .SingleTarget (toStr "all")) := by
  constructor
  · intro p n hp hn
    have hsp : stripPre (toStr "//") (toStr "//" ++ p ++ toStr ":" ++ n) =
        some (p ++ ':' :: n) := by
      apply (stripPre_eq_some _ _ _).mpr
      simp [toStr_colon]
    have hsplit : splitOn ':' (p ++ ':' :: n) = [p, n] := by
      rw [splitOn_append ':' p n fun c hc h => hp (h ▸ hc),
        splitOn_no_sep ':' n fun c hc h => hn (h ▸ hc)]
    rw [parse_two _ _ _ _ hsp hsplit]
    by_cases hb : n = toStr "all"
    · rw [if_pos hb, if_pos hb]
    · rw [if_neg hb, if_neg hb]
  · intro s t hok
    cases hsp : stripPre (toStr "//") s with
    | none =>
      rw [parse_no_pre s hsp] at hok
      cases hok
    | some r =>
      rcases hspl : splitOn ':' r with _ | ⟨x, _ | ⟨y, _ | ⟨z, tail⟩⟩⟩
      · exact absurd hspl (splitOn_ne_nil ':' r)
      · rw [parse_single s r x hsp hspl] at hok
        cases hsu : stripSuf (toStr "/...") x with
        | none =>
          rw [hsu] at hok
          cases hok
        | some pkg =>
          rw [hsu] at hok
          cases hok
          simp
      · rw [parse_two s r x y hsp hspl] at hok
        by_cases hb : y = toStr "all"
        · rw [if_pos hb] at hok
          cases hok
          simp
        · rw [if_neg hb] at hok
          cases hok
          simp [hb]
      · rw [parse_many s r x y z tail hsp hspl] at hok
        cases hok

/-- **C4 witness.** `//a:all` parses with scope `Package`. -/
theorem C4_single_target_rules_witness :
    TargetPattern.parse (toStr "//" ++ toStr "a" ++ toStr ":" ++ toStr "all") =
      .ok ⟨toStr "a", if toStr "all" = toStr "all"
        then PatternScope.Package else .SingleTarget (toStr "all")⟩ :=
  C4_single_target_rules.1 (toStr "a") (toStr "all") (by decide) (by decide)

/-! ## The recursive lister (C9) -/

/-- **C9.** `list_all_files(host, path)` calls `host.list(path)`, yields the
path of every `File` entry, recurses into every `Directory` entry and
flattens the results, in order (first conjunct); if `host.list` itself
fails, the whole operation fails with that error (second conjunct); if any
recursive call fails — the first failing one having error `err` — the whole
operation fails with `err` and no partial file list is returned (third
conjunct); and a directory with no entries yields the empty sequence
(fourth conjunct).  `fuel` models the Rust call stack, which the unguarded
recursion consumes; each statement takes one unit for the present call. -/
theorem C9_list_all_files (host : RustPath → Except HostError (List Entry))
    (fuel : Nat) (path : RustPath) :
    (∀ entries parts, host path = .ok entries →
      List.Forall₂ (fun e l =>
        (e.kind = .File ∧ l = [e.path]) ∨
        (e.kind = .Directory ∧ list_all_files host fuel e.path = .ok l))
        entries parts →
      list_all_files host (fuel + 1) path = .ok parts.flatten) ∧
    (∀ err, host path = .error err →
      list_all_files host (fuel + 1) path = .error err) ∧
    (∀ entries pre d post err, host path = .ok entries →
      entries = pre ++ d :: post →
      d.kind = .Directory →
      list_all_files host fuel d.path = .error err →
      (∀ e ∈ pre, e.kind = .File ∨
        (e.kind = .Directory ∧ ∃ l, list_all_files host fuel e.path = .ok l)) →
      list_all_files host (fuel + 1) path = .error err) ∧
    (host path = .ok [] → list_all_files host (fuel + 1) path = .ok []) := by
  refine ⟨?_, ?_, ?_, ?_⟩
  · intro entries parts hentries hfor
    have hcoll : collectE (entries.map fun e =>
        match e.kind with
        | .File => .ok [e.path]
        | .Directory => list_all_files host fuel e.path) = .ok parts := by
      apply collectE_ok_of_forall₂
      rw [List.forall₂_map_left_iff]
      refine hfor.imp ?_
      intro e l hel
      rcases hel with ⟨hkind, rfl⟩ | ⟨hkind, hrec⟩
      · rw [hkind]
      · rw [hkind]
        exact hrec
    simp only [list_all_files]
    rw [hentries]
    dsimp only
    rw [hcoll]
  · intro err herr
    simp only [list_all_files]
    rw [herr]
  · intro entries pre d post err hentries hsplit hkind hrec hpre
    subst hsplit
    have hms : (pre ++ d :: post).map (fun e =>
        match e.kind with
        | .File => (Except.ok [e.path] : Except HostError (List RustPath))
        | .Directory => list_all_files host fuel e.path) =
        (pre.map fun e =>
          match e.kind with
          | .File => (Except.ok [e.path] : Except HostError (List RustPath))
          | .Directory => list_all_files host fuel e.path) ++
          (Except.error err) :: (post.map fun e =>
            match e.kind with
            | .File => (Except.ok [e.path] : Except HostError (List RustPath))
            | .Directory => list_all_files host fuel e.path) := by
      rw [List.map_append, List.map_cons, hkind]
      dsimp only
      rw [hrec]
    have hcoll : collectE ((pre ++ d :: post).map fun e =>
        match e.kind with
        | .File => (Except.ok [e.path] : Except HostError (List RustPath))
        | .Directory => list_all_files host fuel e.path) = .error err := by
      rw [hms]
      apply collectE_first_error
      intro x hx
      rcases List.mem_map.mp hx with ⟨e, he, rfl⟩
      rcases hpre e he with hf | ⟨hd, l, hl⟩
      · exact ⟨[e.path], by rw [hf]⟩
      · exact ⟨l, by rw [hd, hl]⟩
    simp only [list_all_files]
    rw [hentries]
    dsimp only
    rw [hcoll]
  · intro hempty
    simp only [list_all_files]
    rw [hempty]
    rfl

/-- **C9 witness.** On the sample host, listing the root yields exactly
`f.txt` and `d/g.txt`, flattened in order. -/
theorem C9_list_all_files_witness :
    list_all_files sampleHost 2 ⟨false, []⟩ =
      .ok [⟨false, ["f.txt"]⟩, ⟨false, ["d", "g.txt"]⟩] :=
  (C9_list_all_files sampleHost 1 ⟨false, []⟩).1
    [⟨⟨false, ["f.txt"]⟩, .File⟩, ⟨⟨false, ["d"]⟩, .Directory⟩]
    [[⟨false, ["f.txt"]⟩], [⟨false, ["d", "g.txt"]⟩]]
    (by decide)
    (.cons (Or.inl ⟨rfl, rfl⟩) (.cons (Or.inr ⟨rfl, by decide⟩) .nil))

end Razel
